import Mathlib

/-!
Verification of the `Str` string-utility module (src/Str.ts).

Strings are modelled as `List Char` (JavaScript strings are immutable
sequences of code units; every input the claims exercise is in the basic
plane, where one code unit is one character).  JavaScript's
`toUpperCase`/`toLowerCase` are modelled as the simple per-character case
mapping restricted to ASCII, which coincides with the JS behaviour on every
input the specification discusses.  Numeric position parameters are modelled
by `JSNum`, which distinguishes the cases the code's guards distinguish:
`NaN`, the two infinities, integers, and finite non-integers.
-/

namespace StrUtils

/-- The JavaScript whitespace class `\s` (space, tab, line terminators and
the other Unicode whitespace code points). -/
def isJsWs (c : Char) : Bool :=
  c = ' ' || c = '\t' || c = '\n' || c = '\x0b' || c = '\x0c' || c = '\r' ||
  c = '\u00a0' || c = '\u1680' || ('\u2000' ≤ c && c ≤ '\u200a') ||
  c = '\u2028' || c = '\u2029' || c = '\u202f' || c = '\u205f' ||
  c = '\u3000' || c = '\ufeff'

/-- The regex character class `[A-Z]`: the 26 ASCII uppercase letters. -/
def isAsciiUpper (c : Char) : Bool :=
  c = 'A' || c = 'B' || c = 'C' || c = 'D' || c = 'E' || c = 'F' || c = 'G' ||
  c = 'H' || c = 'I' || c = 'J' || c = 'K' || c = 'L' || c = 'M' || c = 'N' ||
  c = 'O' || c = 'P' || c = 'Q' || c = 'R' || c = 'S' || c = 'T' || c = 'U' ||
  c = 'V' || c = 'W' || c = 'X' || c = 'Y' || c = 'Z'

/-- The 26 ASCII lowercase letters (used to state "first character
lowercase" side conditions). -/
def isAsciiLower (c : Char) : Bool :=
  c = 'a' || c = 'b' || c = 'c' || c = 'd' || c = 'e' || c = 'f' || c = 'g' ||
  c = 'h' || c = 'i' || c = 'j' || c = 'k' || c = 'l' || c = 'm' || c = 'n' ||
  c = 'o' || c = 'p' || c = 'q' || c = 'r' || c = 's' || c = 't' || c = 'u' ||
  c = 'v' || c = 'w' || c = 'x' || c = 'y' || c = 'z'

/-- JS `toUpperCase` on one character: the simple case mapping, restricted to
ASCII (identity on every other character). -/
def jsUpChar : Char → Char
  | 'a' => 'A' | 'b' => 'B' | 'c' => 'C' | 'd' => 'D' | 'e' => 'E' | 'f' => 'F'
  | 'g' => 'G' | 'h' => 'H' | 'i' => 'I' | 'j' => 'J' | 'k' => 'K' | 'l' => 'L'
  | 'm' => 'M' | 'n' => 'N' | 'o' => 'O' | 'p' => 'P' | 'q' => 'Q' | 'r' => 'R'
  | 's' => 'S' | 't' => 'T' | 'u' => 'U' | 'v' => 'V' | 'w' => 'W' | 'x' => 'X'
  | 'y' => 'Y' | 'z' => 'Z'
  | c => c

/-- JS `toLowerCase` on one character: the simple case mapping, restricted to
ASCII (identity on every other character). -/
def jsDownChar : Char → Char
  | 'A' => 'a' | 'B' => 'b' | 'C' => 'c' | 'D' => 'd' | 'E' => 'e' | 'F' => 'f'
  | 'G' => 'g' | 'H' => 'h' | 'I' => 'i' | 'J' => 'j' | 'K' => 'k' | 'L' => 'l'
  | 'M' => 'm' | 'N' => 'n' | 'O' => 'o' | 'P' => 'p' | 'Q' => 'q' | 'R' => 'r'
  | 'S' => 's' | 'T' => 't' | 'U' => 'u' | 'V' => 'v' | 'W' => 'w' | 'X' => 'x'
  | 'Y' => 'y' | 'Z' => 'z'
  | c => c

/-- JS `String.prototype.toUpperCase` over the whole string. -/
def jsToUpper (s : List Char) : List Char := s.map jsUpChar

/-- JS `String.prototype.toLowerCase` over the whole string. -/
def jsToLower (s : List Char) : List Char := s.map jsDownChar

/-- Model of `Str.trim`: `str.replace(/^\s+/, '').replace(/\s+$/, '')` — drop the
leading whitespace run, then the trailing whitespace run. -/
def trim (s : List Char) : List Char :=
  ((s.dropWhile isJsWs).reverse.dropWhile isJsWs).reverse

/-- Model of `Str.capitalize`: trim, then
`str.charAt(0).toUpperCase() + str.slice(1).toLowerCase()`.
On the empty string `charAt(0)` and `slice(1)` are both empty, so the
result is empty. -/
def capitalize (s : List Char) : List Char :=
  match trim s with
  | [] => []
  | c :: cs => jsUpChar c :: cs.map jsDownChar

/-- Model of `Str.lower`: `String(str).toLowerCase()`. -/
def lower (s : List Char) : List Char := jsToLower s

/-- Model of `Str.upper`: `String(str).toUpperCase()`. -/
def upper (s : List Char) : List Char := jsToUpper s

/-- Model of `Str.count`: `String(str).length`. -/
def count (s : List Char) : Nat := s.length

/-- Auxiliary for `String.prototype.split` with a single-character
separator: returns the first field and the remaining fields. -/
def splitCharAux (c : Char) : List Char → List Char × List (List Char)
  | [] => ([], [])
  | x :: xs =>
    let r := splitCharAux c xs
    if x = c then ([], r.1 :: r.2) else (x :: r.1, r.2)

/-- JS `str.split(sep)` for a one-character separator `sep`: the list of
fields between separator occurrences (never empty; `''.split(' ') = ['']`). -/
def splitChar (c : Char) (s : List Char) : List (List Char) :=
  (splitCharAux c s).1 :: (splitCharAux c s).2

/-- JS `arr.join(sep)` for a one-character separator: concatenate the
elements with one separator between each adjacent pair. -/
def joinChar (c : Char) : List (List Char) → List Char
  | [] => []
  | [w] => w
  | w :: ws => w ++ c :: joinChar c ws

/-- The body of `Str.camel`'s `reduce`: fold over the words with their
index, appending the word unchanged at index 0 and `capitalize`d at every
later index, starting from the empty accumulator. -/
def camelFold : List (List Char) → Nat → List Char → List Char
  | [], _, acc => acc
  | w :: ws, i, acc => camelFold ws (i + 1) (acc ++ (if i = 0 then w else capitalize w))

/-- Model of `Str.camel`: trim, lowercase, split on single spaces, then reduce with
the first word unchanged and every later word capitalized. -/
def camel (s : List Char) : List Char :=
  camelFold (splitChar ' ' (jsToLower (trim s))) 0 []

/-- Model of `Str.capitalizeAll`: split on single spaces, `capitalize` every field
in place, join with single spaces. -/
def capitalizeAll (s : List Char) : List Char :=
  joinChar ' ' ((splitChar ' ' s).map capitalize)

/-- Model of `str.replace(/ /g, sep)`: every space replaced by the delimiter
string. -/
def replaceSpaces (sep : List Char) : List Char → List Char
  | [] => []
  | c :: cs => (if c = ' ' then sep else [c]) ++ replaceSpaces sep cs

/-- Modelled from the spec: canonical (NFD) decomposition of one character,
as performed by `normalize('NFD')` — the Unicode decomposition table is
environment data, not repository code.  The table is restricted to common
precomposed Latin letters ("decompose accented characters"); every other
character, in particular all of ASCII, is its own decomposition. -/
def nfdChar : Char → List Char
  | '\u00e0' => ['a', '\u0300'] | '\u00e1' => ['a', '\u0301'] | '\u00e2' => ['a', '\u0302']
  | '\u00e3' => ['a', '\u0303'] | '\u00e4' => ['a', '\u0308']
  | '\u00e8' => ['e', '\u0300'] | '\u00e9' => ['e', '\u0301'] | '\u00ea' => ['e', '\u0302']
  | '\u00eb' => ['e', '\u0308']
  | '\u00ec' => ['i', '\u0300'] | '\u00ed' => ['i', '\u0301'] | '\u00ee' => ['i', '\u0302']
  | '\u00ef' => ['i', '\u0308']
  | '\u00f2' => ['o', '\u0300'] | '\u00f3' => ['o', '\u0301'] | '\u00f4' => ['o', '\u0302']
  | '\u00f5' => ['o', '\u0303'] | '\u00f6' => ['o', '\u0308']
  | '\u00f9' => ['u', '\u0300'] | '\u00fa' => ['u', '\u0301'] | '\u00fb' => ['u', '\u0302']
  | '\u00fc' => ['u', '\u0308']
  | '\u00f1' => ['n', '\u0303'] | '\u00e7' => ['c', '\u0327']
  | c => [c]

/-- Model of `str.normalize('NFD')`, character by character (see `nfdChar`). -/
def nfd : List Char → List Char
  | [] => []
  | c :: cs => nfdChar c ++ nfd cs

/-- The final `replace` of `slugify`'s chain: drop every character of the
combining-diacritical-marks block U+0300 to U+036F. -/
def stripCombining (s : List Char) : List Char :=
  s.filter (fun c => !(decide ('\u0300' ≤ c) && decide (c ≤ '\u036f')))

/-- The expression chained inside `Str.slugify`'s body: trim, lowercase,
replace spaces by the delimiter, NFD-decompose, strip combining marks. -/
def slugifyChain (str sep : List Char) : List Char :=
  stripCombining (nfd (replaceSpaces sep (jsToLower (trim str))))

/-- Model of `Str.slugify`: the body evaluates `slugifyChain` but contains no
`return`, so the function's result is `undefined` (`none`), never the
computed string. -/
def slugify (str sep : List Char) : Option (List Char) :=
  let _ := slugifyChain str sep
  none

/-- A JavaScript number as the position guards of `endsWith`/`startsWith`
observe it: `NaN`, the infinities, an integer, or a finite non-integer
(carrying its floor; the code never uses a non-integer's exact value). -/
inductive JSNum where
  | nan : JSNum
  | posInf : JSNum
  | negInf : JSNum
  | int : Int → JSNum
  | nonIntFinite : Int → JSNum
  deriving DecidableEq, BEq, Repr

/-- JS falsiness of a number: `0`, `-0` and `NaN` are falsy. -/
def JSNum.isFalsy : JSNum → Bool
  | .nan => true
  | .int z => z == 0
  | _ => false

/-- Strictly negative JS numbers (for a finite non-integer the stored floor
is negative exactly when the number is). -/
def JSNum.isNeg : JSNum → Bool
  | .negInf => true
  | .int z => decide (z < 0)
  | .nonIntFinite fl => decide (fl < 0)
  | _ => false

/-- Clamp an integer `fromIndex` into `[0, len]`, as
`String.prototype.indexOf` does. -/
def clampIdx (z : Int) (len : Nat) : Nat := (min (max z 0) (len : Int)).toNat

/-- Conversion `ToIntegerOrInfinity` plus clamping of a `JSNum`
`fromIndex`, as `String.prototype.indexOf` performs it: `ToIntegerOrInfinity` + clamp on a `JSNum` `fromIndex`:
`NaN` and `-Infinity` clamp to `0`, `+Infinity` to the length; a finite
non-integer truncates and then clamps, which agrees with clamping its
floor. -/
def JSNum.clampIndex : JSNum → Nat → Nat
  | .nan, _ => 0
  | .posInf, len => len
  | .negInf, _ => 0
  | .int z, len => clampIdx z len
  | .nonIntFinite fl, len => clampIdx fl len

/-- Linear search for `needle` in `hay` starting at index `i`, trying
`fuel` candidate positions; returns the index found or the JS sentinel
`-1`. -/
def searchFrom (hay needle : List Char) : Nat → Nat → Int
  | _, 0 => -1
  | i, fuel + 1 =>
    if needle.isPrefixOf (hay.drop i) then (i : Int) else searchFrom hay needle (i + 1) fuel

/-- Model of `hay.indexOf(needle, start)` for an already-clamped start position:
the least `j ≥ start` (up to and including `hay.length`, where the empty
needle matches) at which `needle` occurs, else `-1`. -/
def jsIndexOfFrom (hay needle : List Char) (start : Nat) : Int :=
  searchFrom hay needle start (hay.length + 1 - start)

/-- Model of `hay.indexOf(needle, from)` for an arbitrary integer `fromIndex`. -/
def jsIndexOf (hay needle : List Char) (f : Int) : Int :=
  jsIndexOfFrom hay needle (clampIdx f hay.length)

/-- Predicate: `needle` occurs in `hay` at (integer) position `i`: false outside
`[0, hay.length]`, otherwise `needle` is a prefix of `hay.drop i`. -/
def occursAtI (hay needle : List Char) (i : Int) : Bool :=
  if 0 ≤ i ∧ i ≤ (hay.length : Int) then needle.isPrefixOf (hay.drop i.toNat) else false

/-- The position guard of `Str.endsWith`:
`if (!pos || !isFinite(pos) || Math.floor(pos) !== pos || pos > str.length) pos = str.length` —
an integer position survives the guard exactly when it is non-zero and at
most the length; every other number (and an absent argument) is replaced
by the length. -/
def endsWithPos (str : List Char) (pos? : Option JSNum) : Int :=
  match pos? with
  | some (JSNum.int z) =>
    if z != 0 && decide (z ≤ (str.length : Int)) then z else (str.length : Int)
  | _ => (str.length : Int)

/-- Model of `Str.endsWith`: after the guard (`endsWithPos`), `pos -= substring.length`,
`index = str.indexOf(substring, pos - 1)`, and the result is
`index !== -1 && index === pos`. -/
def endsWith (str sub : List Char) (pos? : Option JSNum) : Bool :=
  let p : Int := endsWithPos str pos?
  let p2 : Int := p - (sub.length : Int)
  let index : Int := jsIndexOf str sub (p2 - 1)
  index != -1 && index == p2

/-- JS `===` between the integer result of `indexOf` and the (possibly
undefined-coerced) position number: true only for an equal integer. -/
def jsEqInt : JSNum → Int → Bool
  | JSNum.int z, i => z == i
  | _, _ => false

/-- Model of `Str.startsWith`: `String(str).indexOf(sub, pos || 0) === (pos || 0)`
(a falsy position — absent, `0` or `NaN` — is replaced by `0` on both
sides). -/
def startsWith (str sub : List Char) (pos? : Option JSNum) : Bool :=
  let p : JSNum :=
    match pos? with
    | none => JSNum.int 0
    | some q => if q.isFalsy then JSNum.int 0 else q
  jsEqInt p (jsIndexOfFrom str sub (p.clampIndex str.length))

/-- Scan underlying `Str.snakeToCamel`:
`str.replace(/_+(.?)/g, (_, p1) => p1.toUpperCase())` as a left-to-right
scan.  The `Bool` state records whether the scan is inside a run of
underscores; on leaving a run the captured character (if any) is
uppercased, except that `.` does not match a line terminator, which is
then left in place with the underscores simply deleted. -/
def stcAux : Bool → List Char → List Char
  | _, [] => []
  | false, c :: rest =>
    if c = '_' then stcAux true rest else c :: stcAux false rest
  | true, c :: rest =>
    if c = '_' then stcAux true rest
    else if c = '\n' || c = '\r' || c = '\u2028' || c = '\u2029' then c :: stcAux false rest
    else jsUpChar c :: stcAux false rest

/-- Model of `Str.snakeToCamel` (see `stcAux`). -/
def snakeToCamel (s : List Char) : List Char := stcAux false s

/-- First `replace` of `Str.snake`: `/(^[A-Z])/` — lowercase the first
character when it is ASCII uppercase. -/
def snakeStep1 : List Char → List Char
  | [] => []
  | c :: cs => if isAsciiUpper c then jsDownChar c :: cs else c :: cs

/-- Second `replace` of `Str.snake`: `/([A-Z]+)/g` — every maximal run of
ASCII uppercase letters becomes an underscore followed by the lowercased
run.  The `Bool` state records whether the previous character belonged to
the current uppercase run (so the underscore is emitted once per run). -/
def snakeStep2Aux : Bool → List Char → List Char
  | _, [] => []
  | inRun, c :: cs =>
    if isAsciiUpper c then
      (if inRun then [] else ['_']) ++ jsDownChar c :: snakeStep2Aux true cs
    else c :: snakeStep2Aux false cs

/-- Model of `Str.snake`: lowercase a leading ASCII capital, then replace every
maximal ASCII-uppercase run by an underscore plus the lowercased run. -/
def snake (s : List Char) : List Char := snakeStep2Aux false (snakeStep1 s)

/-- One character rewritten by `replaceAll('_', ' ')`. -/
def undToSpace (c : Char) : Char := if c = '_' then ' ' else c

/-- Model of `Str.words`: `snake(str).replaceAll('_', ' ')` (a one-character
pattern and replacement, hence a per-character map). -/
def words (s : List Char) : List Char := (snake s).map undToSpace

/-- Model of `Str.title`: `capitalizeAll(words(str))`. -/
def title (s : List Char) : List Char := capitalizeAll (words s)

/-- Model of `Str.detectObject`, which looks only at the string
`Object.prototype.toString.call(obj)`; modelled on that tag string. -/
def detectObject (tag : List Char) : Bool :=
  tag == ("[object Object]".toList)

/-- The call surface of the module: one constructor per exported operation
with its (text-domain) arguments. -/
inductive Op where
  | trimOp (s : List Char)
  | capitalizeOp (s : List Char)
  | camelOp (s : List Char)
  | slugifyOp (s sep : List Char)
  | countOp (s : List Char)
  | endsWithOp (s sub : List Char) (p : Option JSNum)
  | startsWithOp (s sub : List Char) (p : Option JSNum)
  | lowerOp (s : List Char)
  | upperOp (s : List Char)
  | capitalizeAllOp (s : List Char)
  | snakeToCamelOp (s : List Char)
  | snakeOp (s : List Char)
  | detectObjectOp (tag : List Char)
  | wordsOp (s : List Char)
  | titleOp (s : List Char)

/-- A value an operation of the module can produce: a string, a number, a
boolean, or `undefined` (the result of the return-less `slugify`). -/
inductive OpOut where
  | strv (s : List Char)
  | numv (n : Nat)
  | boolv (b : Bool)
  | undef

/-- Run one operation of the module.  The `Except` codomain models a JS
exception; the source contains no `throw` and applies only total string
primitives, so every branch is `Except.ok`. -/
def applyOp : Op → Except (List Char) OpOut
  | .trimOp s => .ok (.strv (trim s))
  | .capitalizeOp s => .ok (.strv (capitalize s))
  | .camelOp s => .ok (.strv (camel s))
  | .slugifyOp s sep =>
    .ok (match slugify s sep with | none => .undef | some r => .strv r)
  | .countOp s => .ok (.numv (count s))
  | .endsWithOp s sub p => .ok (.boolv (endsWith s sub p))
  | .startsWithOp s sub p => .ok (.boolv (startsWith s sub p))
  | .lowerOp s => .ok (.strv (lower s))
  | .upperOp s => .ok (.strv (upper s))
  | .capitalizeAllOp s => .ok (.strv (capitalizeAll s))
  | .snakeToCamelOp s => .ok (.strv (snakeToCamel s))
  | .snakeOp s => .ok (.strv (snake s))
  | .detectObjectOp tag => .ok (.boolv (detectObject tag))
  | .wordsOp s => .ok (.strv (words s))
  | .titleOp s => .ok (.strv (title s))

/-- Words written by `camel` as its own spec sentence describes them:
first word of the split unchanged, every later word `capitalize`d,
concatenated (stated with `join`/`map` instead of the source's indexed
`reduce`). -/
def camelFromSpec (s : List Char) : List Char :=
  match splitChar ' ' (jsToLower (trim s)) with
  | [] => []
  | w :: ws => w ++ (ws.map capitalize).flatten

/-- The guard of `endsWith` resets the position to the text length:
true for every non-integer number, and for an integer exactly when it is
zero or exceeds the length. -/
def endsWithFallsBack (p : JSNum) (len : Nat) : Bool :=
  match p with
  | JSNum.int z => z == 0 || decide ((len : Int) < z)
  | _ => true

/-- Strings whose uppercase structure `snake` and `snakeToCamel` round-trip:
no two adjacent ASCII uppercase letters. -/
def noTwoUpper : List Char → Bool
  | [] => true
  | [_] => true
  | a :: b :: t => (!(isAsciiUpper a && isAsciiUpper b)) && noTwoUpper (b :: t)

/-- Normal form of `snake` on inputs without adjacent uppercase letters:
each ASCII capital becomes an underscore plus its lowercase form. -/
def snakeSingles : List Char → List Char
  | [] => []
  | c :: cs =>
    if isAsciiUpper c then '_' :: jsDownChar c :: snakeSingles cs
    else c :: snakeSingles cs

/-- The string is empty or begins with an ASCII lowercase letter (the
"first character lowercase" side condition of the round-trip claim). -/
def firstLower : List Char → Bool
  | [] => true
  | c :: _ => isAsciiLower c


/-! ### Character-level lemmas -/

theorem jsUpChar_down {c : Char} (h : isAsciiUpper c = true) :
    jsUpChar (jsDownChar c) = c := by
  simp only [isAsciiUpper, Bool.or_eq_true, decide_eq_true_eq] at h
  casesm* _ ∨ _ <;> subst_vars <;> decide

theorem jsDownChar_props {c : Char} (h : isAsciiUpper c = true) :
    jsDownChar c ≠ '_' ∧
    (jsDownChar c = '\n' || jsDownChar c = '\r' || jsDownChar c = ' ' ||
      jsDownChar c = ' ') = false := by
  simp only [isAsciiUpper, Bool.or_eq_true, decide_eq_true_eq] at h
  casesm* _ ∨ _ <;> subst_vars <;> exact ⟨by decide, by decide⟩

theorem lower_not_upper {c : Char} (h : isAsciiLower c = true) :
    isAsciiUpper c = false := by
  simp only [isAsciiLower, Bool.or_eq_true, decide_eq_true_eq] at h
  casesm* _ ∨ _ <;> subst_vars <;> decide

theorem jsUpChar_space {c : Char} (h : jsUpChar c = ' ') : c = ' ' := by
  unfold jsUpChar at h
  split at h <;> first | exact h | simp_all

theorem jsDownChar_space {c : Char} (h : jsDownChar c = ' ') : c = ' ' := by
  unfold jsDownChar at h
  split at h <;> first | exact h | simp_all

/-! ### Claim C1 — `slugify` computes a slug but never returns it -/

/-- Claim C1: for every input string and every delimiter, `slugify`'s body
computes the trim/lowercase/space-replacement/accent-stripping chain, yet
the function's result is `undefined` (`none`), never the transformed
string; the chain itself does produce the slug the documentation promises
(shown on the doc example). -/
theorem slugify_never_returns :
    (∀ s sep : List Char, slugify s sep = none) ∧
    slugifyChain (" This is a tesT ".toList) ("-".toList) = "this-is-a-test".toList :=
  ⟨fun _ _ => rfl, by decide⟩

/-! ### Claim C3 — `snake` on the spec's two examples -/

/-- Claim C3 counterexample: `snake('ID')` is `'i_d'`, not `'id'` — the
first `replace` lowercases only the leading capital, and the remaining
run `'D'` still receives an underscore. -/
theorem snake_ID_not_id : snake ("ID".toList) ≠ "id".toList := by decide

/-- Claim C3 amended: `snake('helloWorld') == 'hello_world'` and
`snake('ID') == 'i_d'`. -/
theorem snake_examples :
    snake ("helloWorld".toList) = "hello_world".toList ∧
    snake ("ID".toList) = "i_d".toList := by decide

/-! ### Claim C6 — `camel` -/

theorem camelFold_succ (ws : List (List Char)) :
    ∀ (i : Nat) (acc : List Char),
      camelFold ws (i + 1) acc = acc ++ (ws.map capitalize).flatten := by
  induction ws with
  | nil => intro i acc; simp [camelFold]
  | cons w ws ih =>
    intro i acc
    simp only [camelFold, Nat.succ_ne_zero, if_neg, List.map_cons, List.flatten_cons]
    rw [ih (i + 1)]
    simp [List.append_assoc]

theorem camel_eq_fromSpec (s : List Char) : camel s = camelFromSpec s := by
  unfold camel camelFromSpec splitChar
  rw [camelFold]
  simp only [if_pos rfl]
  rw [show (0 + 1) = 1 from rfl, camelFold_succ _ 0]
  simp

/-- Claim C6: `camel` trims, lowercases the whole string, splits on single
spaces, and concatenates the fields with the first unchanged and every
later one `capitalize`d (uppercased first character, lowercased rest) —
stated against `camelFromSpec`, the spec-worded form — and
`camel(' This is a tesT ') == 'thisIsATest'`. -/
theorem camel_matches_spec :
    (∀ s : List Char, camel s = camelFromSpec s) ∧
    camel (" This is a tesT ".toList) = "thisIsATest".toList :=
  ⟨camel_eq_fromSpec, by decide⟩

/-! ### Claim C8 — totality -/

/-- Claim C8: every operation of the module, applied to any input of the
documented text domain, returns a value — no branch of `applyOp` reaches
the exception codomain, because the source contains no `throw` and uses
only total string primitives. -/
theorem applyOp_total : ∀ op : Op, ∃ r, applyOp op = Except.ok r := by
  intro op
  cases op <;> exact ⟨_, rfl⟩

/-! ### Claim C9 — `words` never yields an underscore -/

theorem contains_map_undToSpace (l : List Char) :
    (l.map undToSpace).contains '_' = false := by
  induction l with
  | nil => rfl
  | cons x xs ih =>
    simp only [List.map_cons, List.contains_cons, ih, Bool.or_false]
    unfold undToSpace
    split
    next => decide
    next hx =>
      simp only [beq_eq_false_iff_ne]
      exact fun hh => hx hh.symm

/-- Claim C9: for every input string, `words` produces no underscore —
the closing `replaceAll('_', ' ')` maps every underscore (whether
inserted by `snake` or already present in the input) to a space. -/
theorem words_no_underscore : ∀ s : List Char, (words s).contains '_' = false :=
  fun s => contains_map_undToSpace (snake s)

/-! ### Claim C4 — `capitalizeAll` and runs of spaces -/

theorem splitCharAux_spec (c : Char) (s : List Char) :
    (splitCharAux c s).1.count c = 0 ∧
    (∀ w ∈ (splitCharAux c s).2, w.count c = 0) ∧
    (splitCharAux c s).2.length = s.count c := by
  induction s with
  | nil => refine ⟨rfl, by simp [splitCharAux], rfl⟩
  | cons x xs ih =>
    obtain ⟨h1, h2, h3⟩ := ih
    by_cases hx : x = c
    · subst hx
      simp only [splitCharAux, if_pos rfl]
      refine ⟨rfl, ?_, ?_⟩
      · intro w hw
        rcases List.mem_cons.mp hw with rfl | hw
        · exact h1
        · exact h2 w hw
      · simp [List.count_cons, h3]
    · simp only [splitCharAux, if_neg hx]
      refine ⟨?_, h2, ?_⟩
      · rw [List.count_cons, h1]
        simp [hx]
      · rw [h3, List.count_cons]
        simp [hx]

theorem joinChar_count (c : Char) :
    ∀ ws : List (List Char), (∀ w ∈ ws, w.count c = 0) →
      (joinChar c ws).count c = ws.length - 1
  | [], _ => by simp [joinChar]
  | [w], h => by
    simpa [joinChar] using h w (by simp)
  | w :: x :: t, h => by
    have hw : w.count c = 0 := h w (by simp)
    have ht := joinChar_count c (x :: t) (fun y hy => h y (by simp [hy]))
    simp only [joinChar, List.count_append, List.count_cons, hw, ht]
    simp [List.length_cons]

theorem mem_of_mem_trim {s : List Char} {a : Char} (h : a ∈ trim s) : a ∈ s := by
  unfold trim at h
  rw [List.mem_reverse] at h
  have h' := (List.dropWhile_suffix isJsWs).subset h
  rw [List.mem_reverse] at h'
  exact (List.dropWhile_suffix isJsWs).subset h'

theorem capitalize_count_space {w : List Char} (h : w.count ' ' = 0) :
    (capitalize w).count ' ' = 0 := by
  rw [List.count_eq_zero] at h ⊢
  intro hc
  unfold capitalize at hc
  rcases htr : trim w with _ | ⟨c, cs⟩
  · rw [htr] at hc
    simp at hc
  · rw [htr] at hc
    rcases List.mem_cons.mp hc with hc | hc
    · have hcsp : c = ' ' := jsUpChar_space hc.symm
      exact h (mem_of_mem_trim (htr ▸ (hcsp ▸ List.mem_cons_self c cs)))
    · obtain ⟨d, hd, hde⟩ := List.mem_map.mp hc
      have hdsp : d = ' ' := jsDownChar_space hde
      subst hdsp
      exact h (mem_of_mem_trim (htr ▸ List.mem_cons_of_mem c hd))

/-- Claim C4 counterexample: in `capitalizeAll` a run of two spaces does
not collapse — `capitalizeAll('a  b')` is `'A  B'` (the empty field
between the spaces capitalizes to the empty string and the join restores
both spaces), not the single-spaced `'A B'`. -/
theorem capitalizeAll_run_counterexample :
    capitalizeAll ("a  b".toList) = "A  B".toList ∧
    "A  B".toList ≠ "A B".toList := by decide

/-- Claim C4 amended: `capitalizeAll` preserves runs of spaces instead of
collapsing them — splitting on single spaces and rejoining with single
spaces reproduces every space of the input, so the output has exactly as
many space characters as the input. -/
theorem capitalizeAll_preserves_spaces :
    ∀ s : List Char, (capitalizeAll s).count ' ' = s.count ' ' := by
  intro s
  obtain ⟨h1, h2, h3⟩ := splitCharAux_spec ' ' s
  have hmap : ∀ w ∈ (splitChar ' ' s).map capitalize, w.count ' ' = 0 := by
    intro w hw
    obtain ⟨v, hv, rfl⟩ := List.mem_map.mp hw
    rcases List.mem_cons.mp hv with rfl | hv
    · exact capitalize_count_space h1
    · exact capitalize_count_space (h2 v hv)
  unfold capitalizeAll
  rw [joinChar_count ' ' _ hmap]
  simp only [List.length_map, splitChar, List.length_cons]
  rw [h3]
  omega

/-! ### Claim C7 — `snakeToCamel` undoes `snake` on simple camelCase -/

theorem noTwoUpper_tail {c : Char} {cs : List Char}
    (h : noTwoUpper (c :: cs) = true) : noTwoUpper cs = true := by
  cases cs with
  | nil => rfl
  | cons d t =>
    simp only [noTwoUpper, Bool.and_eq_true] at h
    exact h.2

theorem noTwoUpper_head {c d : Char} {t : List Char}
    (h : noTwoUpper (c :: d :: t) = true) (hc : isAsciiUpper c = true) :
    isAsciiUpper d = false := by
  simp only [noTwoUpper, Bool.and_eq_true, Bool.not_eq_true'] at h
  rcases Bool.and_eq_false_iff.mp h.1 with h' | h'
  · rw [hc] at h'; cases h'
  · exact h'

theorem snakeStep2Aux_true_of_head {cs : List Char}
    (h : ∀ d ds, cs = d :: ds → isAsciiUpper d = false) :
    snakeStep2Aux true cs = snakeStep2Aux false cs := by
  cases cs with
  | nil => rfl
  | cons d ds => simp [snakeStep2Aux, h d ds rfl]

theorem snakeStep2_singles :
    ∀ s : List Char, noTwoUpper s = true → snakeStep2Aux false s = snakeSingles s := by
  intro s
  induction s with
  | nil => intro _; rfl
  | cons c cs ih =>
    intro h
    have htl := noTwoUpper_tail h
    by_cases hc : isAsciiUpper c = true
    · have hhd : ∀ d ds, cs = d :: ds → isAsciiUpper d = false := by
        intro d ds hcs
        subst hcs
        exact noTwoUpper_head h hc
      simp only [snakeStep2Aux, snakeSingles, hc, if_true, Bool.false_eq_true,
        if_false, List.singleton_append]
      rw [snakeStep2Aux_true_of_head hhd, ih htl]
    · have hc' : isAsciiUpper c = false := by
        revert hc; cases isAsciiUpper c <;> simp
      simp only [snakeStep2Aux, snakeSingles, hc', Bool.false_eq_true, if_false]
      rw [ih htl]

theorem snakeStep1_of_firstLower {s : List Char} (h : firstLower s = true) :
    snakeStep1 s = s := by
  cases s with
  | nil => rfl
  | cons c cs =>
    have : isAsciiUpper c = false := lower_not_upper (by simpa [firstLower] using h)
    simp [snakeStep1, this]

theorem stc_singles :
    ∀ s : List Char, (∀ c ∈ s, c ≠ '_') → stcAux false (snakeSingles s) = s := by
  intro s
  induction s with
  | nil => intro _; rfl
  | cons c cs ih =>
    intro h
    have hcs : ∀ x ∈ cs, x ≠ '_' := fun x hx => h x (List.mem_cons_of_mem _ hx)
    by_cases hc : isAsciiUpper c = true
    · obtain ⟨hne, hlt⟩ := jsDownChar_props hc
      have hup := jsUpChar_down hc
      simp only [snakeSingles, hc, if_true]
      show stcAux true (jsDownChar c :: snakeSingles cs) = c :: cs
      simp [stcAux, hne, hlt, hup, ih hcs]
    · have hc' : isAsciiUpper c = false := by
        revert hc; cases isAsciiUpper c <;> simp
      have hcne : c ≠ '_' := h c (List.mem_cons_self c cs)
      simp only [snakeSingles, hc', Bool.false_eq_true, if_false]
      show stcAux false (c :: snakeSingles cs) = c :: cs
      simp [stcAux, hcne, ih hcs]

/-- Claim C7: for every simple camelCase identifier — no underscore, no
space, no two adjacent ASCII uppercase letters, first character (if any)
ASCII lowercase — `snakeToCamel (snake s) = s`. -/
theorem snake_roundtrip (s : List Char)
    (h1 : ∀ c ∈ s, c ≠ '_') (_h2 : ∀ c ∈ s, c ≠ ' ')
    (h3 : noTwoUpper s = true) (h4 : firstLower s = true) :
    snakeToCamel (snake s) = s := by
  unfold snakeToCamel snake
  rw [snakeStep1_of_firstLower h4, snakeStep2_singles s h3]
  exact stc_singles s h1

/-- Claim C7 witness: the round-trip at the concrete simple camelCase
identifier `'helloWorld'`. -/
theorem snake_roundtrip_witness :
    snakeToCamel (snake ("helloWorld".toList)) = "helloWorld".toList :=
  snake_roundtrip _ (by decide) (by decide) (by decide) (by decide)

/-! ### `indexOf` search lemmas -/

theorem searchFrom_ge (hay needle : List Char) :
    ∀ (fuel i : Nat),
      searchFrom hay needle i fuel = -1 ∨ (i : Int) ≤ searchFrom hay needle i fuel := by
  intro fuel
  induction fuel with
  | zero => intro i; exact Or.inl rfl
  | succ m ih =>
    intro i
    simp only [searchFrom]
    split
    · exact Or.inr (le_refl _)
    · rcases ih (i + 1) with h | h
      · exact Or.inl h
      · refine Or.inr (le_trans ?_ h)
        push_cast
        omega

theorem jsIndexOfFrom_ge (t u : List Char) (s : Nat) :
    jsIndexOfFrom t u s = -1 ∨ (s : Int) ≤ jsIndexOfFrom t u s :=
  searchFrom_ge t u _ s

theorem endsWith_neg_core (t u : List Char) (p2 : Int) (h : p2 < 0) :
    ((jsIndexOf t u (p2 - 1) != -1) && (jsIndexOf t u (p2 - 1) == p2)) = false := by
  unfold jsIndexOf
  rcases jsIndexOfFrom_ge t u (clampIdx (p2 - 1) t.length) with hi | hi
  · rw [hi]; rfl
  · have hne : jsIndexOfFrom t u (clampIdx (p2 - 1) t.length) ≠ p2 := by omega
    rw [beq_eq_false_iff_ne.mpr hne, Bool.and_false]

theorem idxFrom_zero_eq (t u : List Char) :
    (jsIndexOfFrom t u 0 == (0 : Int)) = u.isPrefixOf t := by
  unfold jsIndexOfFrom
  rw [Nat.sub_zero]
  simp only [searchFrom, Nat.zero_add, List.drop_zero]
  split
  next hp =>
    rw [hp]
    simp
  next hp =>
    have hp' : u.isPrefixOf t = false := by
      revert hp; cases u.isPrefixOf t <;> simp
    rw [hp']
    rcases searchFrom_ge t u t.length 1 with hi | hi
    · rw [hi]; rfl
    · exact beq_eq_false_iff_ne.mpr (by omega)

theorem idxFrom_succ_eq (t u : List Char) (n : Nat) (h1 : 1 ≤ n) (hn : n ≤ t.length) :
    (jsIndexOfFrom t u (n - 1) == (n : Int))
      = (!(u.isPrefixOf (t.drop (n - 1))) && u.isPrefixOf (t.drop n)) := by
  unfold jsIndexOfFrom
  rw [show t.length + 1 - (n - 1) = ((t.length - n) + 1) + 1 from by omega]
  simp only [searchFrom]
  split
  next hp =>
    rw [hp]
    have hne : ((n - 1 : Nat) : Int) ≠ (n : Int) := by omega
    rw [beq_eq_false_iff_ne.mpr hne]
    simp
  next hp =>
    have hp' : u.isPrefixOf (t.drop (n - 1)) = false := by
      revert hp; cases u.isPrefixOf (t.drop (n - 1)) <;> simp
    rw [hp', show (n - 1) + 1 = n from by omega]
    simp only [searchFrom, Bool.not_false, Bool.true_and]
    split
    next hq =>
      rw [hq]
      simp
    next hq =>
      have hq' : u.isPrefixOf (t.drop n) = false := by
        revert hq; cases u.isPrefixOf (t.drop n) <;> simp
      rw [hq']
      rcases searchFrom_ge t u (t.length - n) (n + 1) with hi | hi
      · rw [hi]
        exact beq_eq_false_iff_ne.mpr (by omega)
      · exact beq_eq_false_iff_ne.mpr (by omega)

theorem occursAtI_nonneg (t u : List Char) (n : Nat) (hn : n ≤ t.length) :
    occursAtI t u (n : Int) = u.isPrefixOf (t.drop n) := by
  unfold occursAtI
  rw [if_pos (by constructor <;> omega)]
  rfl

theorem occursAtI_neg (t u : List Char) (i : Int) (h : i < 0) :
    occursAtI t u i = false := by
  unfold occursAtI
  rw [if_neg (by omega)]

theorem isSuffixOf_eq_occurs (t u : List Char) :
    u.isSuffixOf t = occursAtI t u ((t.length : Int) - (u.length : Int)) := by
  by_cases hl : u.length ≤ t.length
  · unfold occursAtI
    rw [if_pos (by constructor <;> omega)]
    rw [show ((t.length : Int) - (u.length : Int)).toNat = t.length - u.length from by omega]
    rw [Bool.eq_iff_iff, List.isSuffixOf_iff_suffix, List.isPrefixOf_iff_prefix]
    constructor
    · intro h
      rw [List.suffix_iff_eq_drop] at h
      exact h ▸ List.prefix_rfl
    · intro h
      rw [List.suffix_iff_eq_drop]
      refine h.eq_of_length ?_
      rw [List.length_drop]
      omega
  · unfold occursAtI
    rw [if_neg (by omega)]
    rw [Bool.eq_false_iff]
    intro h
    exact hl (List.isSuffixOf_iff_suffix.mp h).length_le

theorem and_bne_eq {idx p2 : Int} (h : 0 ≤ p2) :
    ((idx != -1) && (idx == p2)) = (idx == p2) := by
  by_cases he : idx = p2
  · subst he
    have h1 : (idx != -1) = true := bne_iff_ne.mpr (by omega)
    rw [h1, Bool.true_and]
  · rw [beq_eq_false_iff_ne.mpr he, Bool.and_false]

/-! ### Claim C2 — what `endsWith` without a position actually decides -/

/-- Claim C2 counterexample: `'aaa'` ends with `'aa'`, yet
`endsWith('aaa', 'aa')` is `false` — the search starts one position early
(`indexOf(substring, pos - 1)`) and finds the earlier occurrence. -/
theorem endsWith_suffix_counterexample :
    endsWith ("aaa".toList) ("aa".toList) none = false ∧
    List.isSuffixOf ("aa".toList) ("aaa".toList) = true := by decide

/-- Claim C2 amended: `endsWith(t, u)` (no position) is true iff `t` ends
with `u` AND `u` does not also occur one position earlier (at index
`len(t) - len(u) - 1`); the two cited examples do hold. -/
theorem endsWith_default_characterization :
    (∀ t u : List Char,
      endsWith t u none
        = (u.isSuffixOf t &&
            !occursAtI t u ((t.length : Int) - (u.length : Int) - 1))) ∧
    endsWith ("test".toList) ("st".toList) none = true ∧
    endsWith ("test".toList) ("te".toList) none = false := by
  refine ⟨?_, by decide, by decide⟩
  intro t u
  show ((jsIndexOf t u ((t.length : Int) - (u.length : Int) - 1) != -1) &&
      (jsIndexOf t u ((t.length : Int) - (u.length : Int) - 1)
        == ((t.length : Int) - (u.length : Int)))) = _
  by_cases hl : u.length ≤ t.length
  · obtain ⟨n, hn⟩ : ∃ n : Nat, (t.length : Int) - (u.length : Int) = (n : Int) :=
      ⟨t.length - u.length, by omega⟩
    rw [hn, and_bne_eq (show (0 : Int) ≤ (n : Int) from by omega)]
    unfold jsIndexOf
    rw [show clampIdx ((n : Int) - 1) t.length = n - 1 from by unfold clampIdx; omega]
    rw [isSuffixOf_eq_occurs, hn, occursAtI_nonneg t u n (by omega)]
    by_cases h1 : 1 ≤ n
    · rw [show ((n : Int) - 1) = ((n - 1 : Nat) : Int) from by omega]
      rw [occursAtI_nonneg t u (n - 1) (by omega)]
      rw [idxFrom_succ_eq t u n h1 (by omega)]
      exact Bool.and_comm _ _
    · have hn0 : n = 0 := by omega
      subst hn0
      rw [occursAtI_neg t u (((0 : Nat) : Int) - 1) (by omega)]
      simp only [Nat.zero_sub, Nat.cast_zero]
      rw [idxFrom_zero_eq]
      simp
  · rw [endsWith_neg_core t u ((t.length : Int) - (u.length : Int)) (by omega)]
    rw [isSuffixOf_eq_occurs, occursAtI_neg t u _ (by omega), Bool.false_and]

/-! ### Claim C5 — which positions fall back in `endsWith` -/

/-- Claim C5 counterexample: the strictly negative integer position `-2`
does not fall back to the full text length — the guard only checks
`pos > str.length` upward — so `endsWith('test', 'st', -2)` is `false`
while `endsWith('test', 'st')` is `true`. -/
theorem endsWith_negative_not_fallback :
    endsWith ("test".toList) ("st".toList) (some (JSNum.int (-2))) = false ∧
    endsWith ("test".toList) ("st".toList) none = true := by decide

/-- Claim C5 amended: a non-finite, non-integer, zero (the guard tests
truthiness) or greater-than-length position falls back to the full text
length; a strictly negative integer position is NOT reset, and such a
call always returns `false`. -/
theorem endsWith_position_fallback :
    (∀ (t u : List Char) (p : JSNum), endsWithFallsBack p t.length = true →
      endsWith t u (some p) = endsWith t u none) ∧
    (∀ (t u : List Char) (z : Int), z < 0 →
      endsWith t u (some (JSNum.int z)) = false) := by
  constructor
  · intro t u p hp
    have hpos : endsWithPos t (some p) = endsWithPos t none := by
      cases p with
      | int z =>
        have hc : (z != 0 && decide (z ≤ (t.length : Int))) = false := by
          simp only [endsWithFallsBack, Bool.or_eq_true, beq_iff_eq,
            decide_eq_true_eq] at hp
          rcases hp with rfl | hlt
          · rfl
          · have h2 : decide (z ≤ (t.length : Int)) = false := by
              rw [decide_eq_false_iff_not]
              omega
            rw [h2, Bool.and_false]
        simp only [endsWithPos]
        rw [hc]
        simp
      | nan => rfl
      | posInf => rfl
      | negInf => rfl
      | nonIntFinite fl => rfl
    simp only [endsWith, hpos]
  · intro t u z hz
    have hc : (z != 0 && decide (z ≤ (t.length : Int))) = true := by
      have ha : (z != 0) = true := bne_iff_ne.mpr (by omega)
      have hb : decide (z ≤ (t.length : Int)) = true := decide_eq_true (by omega)
      rw [ha, hb]
      rfl
    have hpos : endsWithPos t (some (JSNum.int z)) = z := by
      simp only [endsWithPos]
      rw [hc]
      simp
    simp only [endsWith, hpos]
    exact endsWith_neg_core t u (z - (u.length : Int)) (by omega)

/-- Claim C5 witness: `NaN` falls back to the default position, and the
negative integer `-2` yields `false`, at concrete inputs. -/
theorem endsWith_position_fallback_witness :
    endsWith ("test".toList) ("st".toList) (some JSNum.nan)
        = endsWith ("test".toList) ("st".toList) none ∧
    endsWith ("x".toList) ("x".toList) (some (JSNum.int (-2))) = false :=
  ⟨endsWith_position_fallback.1 _ _ _ (by decide),
    endsWith_position_fallback.2 _ _ (-2) (by decide)⟩

/-! ### Claim C10 — `startsWith` with a negative position -/

/-- Claim C10 counterexample: `startsWith('b', 'a', -1)` is `true`, not
`false` — `indexOf` returns the sentinel `-1` when `'a'` does not occur,
and the code compares that sentinel with the position itself. -/
theorem startsWith_neg_counterexample :
    startsWith ("b".toList) ("a".toList) (some (JSNum.int (-1))) = true := by decide

/-- Claim C10 amended: for a strictly negative position `p`,
`startsWith(t, u, p)` is true exactly when `p` is the integer `-1` and
`u` occurs nowhere in `t` (the `indexOf` sentinel equals the position);
for every other negative position it is `false`. -/
theorem startsWith_negative_characterization (t u : List Char) (p : JSNum)
    (h : p.isNeg = true) :
    startsWith t u (some p)
      = ((p == JSNum.int (-1)) && (jsIndexOfFrom t u 0 == -1)) := by
  cases p with
  | nan => simp [JSNum.isNeg] at h
  | posInf => simp [JSNum.isNeg] at h
  | negInf => rfl
  | nonIntFinite fl => rfl
  | int z =>
    have hz : z < 0 := by simpa [JSNum.isNeg] using h
    have hf : (JSNum.int z).isFalsy = false := by
      simp only [JSNum.isFalsy]
      rw [beq_eq_false_iff_ne.mpr (show z ≠ 0 from by omega)]
    simp only [startsWith]
    rw [hf]
    simp only [Bool.false_eq_true, if_false]
    show (z == jsIndexOfFrom t u (clampIdx z t.length))
        = ((JSNum.int z == JSNum.int (-1)) && (jsIndexOfFrom t u 0 == -1))
    rw [show clampIdx z t.length = 0 from by unfold clampIdx; omega]
    rw [show (JSNum.int z == JSNum.int (-1)) = (z == (-1 : Int)) from rfl]
    rcases jsIndexOfFrom_ge t u 0 with hi | hi
    · rw [hi]
      simp
    · rw [beq_eq_false_iff_ne.mpr (show z ≠ jsIndexOfFrom t u 0 from by omega),
        beq_eq_false_iff_ne.mpr (show jsIndexOfFrom t u 0 ≠ -1 from by omega),
        Bool.and_false]

/-- Claim C10 witness: the amended characterization applied at
`t = 'b'`, `u = 'a'`, `p = -1`. -/
theorem startsWith_negative_characterization_witness :
    startsWith ("b".toList) ("a".toList) (some (JSNum.int (-1)))
      = ((JSNum.int (-1) == JSNum.int (-1)) &&
          (jsIndexOfFrom ("b".toList) ("a".toList) 0 == -1)) :=
  startsWith_negative_characterization _ _ _ (by decide)

end StrUtils
